import Mathlib

/-!
Verification of the mergen download-engine core against its specification.

The definitions below are shallow embeddings of the Python sources:
  * `src/core/downloader.py`   (class Downloader: prepare, validate_segments,
                                save_state, _detect_stream_type, start)
  * `src/core/download_manager.py` (class DownloadManager: save_state, load_state)
  * `src/core/queue_manager.py`    (class QueueManager: delete_queue,
                                    start_queue, on_download_complete, _process_queue)
  * `src/core/utils.py`        (sanitize_filename)
  * `src/core/models.py`       (DownloadStatus)

Python integers are modelled by `Int` (arbitrary precision, floor division
via `Int.fdiv` matching the Python `//` operator); Python lists by `List`;
Python strings by `String`/`List Char`.
-/

namespace Mergen

/-! ## Segments (downloader.py)

A segment dict `{"index": i, "start": s, "end": e, "downloaded": d,
"finished": b}` as built by `Downloader.prepare` and consumed by
`Downloader.validate_segments`.  The Python key `end` is a Lean keyword,
so the field is called `endByte`. -/

structure Segment where
  index : Nat
  start : Int
  endByte : Int
  downloaded : Int
  finished : Bool
deriving Repr, DecidableEq

/-- Embedding of the segment-construction loop of `Downloader.prepare`
(downloader.py lines 497-505):

    segment_size = self.total_size // self.worker_count
    for i in range(self.worker_count):
        start = i * segment_size
        end = (i + 1) * segment_size - 1 if i < self.worker_count - 1 else self.total_size - 1
        self.segments.append({"index": i, "start": start, "end": end,
                              "downloaded": 0, "finished": False})

Python `//` is floor division, hence `Int.fdiv`. -/
def buildSegments (totalSize : Int) (workerCount : Nat) : List Segment :=
  let segmentSize : Int := totalSize.fdiv workerCount
  (List.range workerCount).map (fun i =>
    { index := i
      start := (i : Int) * segmentSize
      endByte := if i < workerCount - 1 then ((i : Int) + 1) * segmentSize - 1 else totalSize - 1
      downloaded := 0
      finished := false })

/-- Embedding of the worker-count adjustment of `Downloader.prepare`
(downloader.py line 498):
    self.worker_count = self.worker_count if self.total_size > 0 else 1 -/
def prepareWorkerCount (totalSize : Int) (workerCount : Nat) : Nat :=
  if totalSize > 0 then workerCount else 1

/-- Embedding of the size detection of `Downloader.prepare`
(downloader.py lines 471-475): total size is the final `/`-field of the
`Content-Range` header when that header is present, otherwise the
`Content-Length` header, defaulting to 0 when that is absent too.
The numeric header values arrive already parsed. -/
def detectTotalSize (contentRange : Option Int) (contentLength : Option Int) : Int :=
  match contentRange with
  | some n => n
  | none => contentLength.getD 0

/-- Embedding of the size-detection plus segment-construction part of
`Downloader.prepare` (downloader.py lines 470-507). -/
def prepareSegments (contentRange : Option Int) (contentLength : Option Int)
    (workerCount : Nat) : List Segment :=
  let totalSize := detectTotalSize contentRange contentLength
  buildSegments totalSize (prepareWorkerCount totalSize workerCount)

/-- Embedding of the per-segment body of `Downloader.validate_segments`
(downloader.py lines 124-147):

    expected_size = (seg["end"] - seg["start"]) + 1
    if seg["finished"] and seg["downloaded"] < expected_size:
        seg["finished"] = False
    if seg["downloaded"] > expected_size:
        seg["downloaded"] = expected_size
        seg["finished"] = True -/
def validateSegment (seg : Segment) : Segment :=
  let expectedSize := (seg.endByte - seg.start) + 1
  let seg1 := if seg.finished && decide (seg.downloaded < expectedSize) then
      { seg with finished := false } else seg
  if seg1.downloaded > expectedSize then
    { seg1 with downloaded := expectedSize, finished := true }
  else seg1

/-- Embedding of `Downloader.validate_segments` (downloader.py lines 124-147):
the loop rebuilds the segment list by validating each entry in place. -/
def validate_segments (segs : List Segment) : List Segment :=
  segs.map validateSegment

instance : Inhabited Segment := ⟨⟨0, 0, 0, 0, false⟩⟩

theorem buildSegments_length (t : Int) (n : Nat) : (buildSegments t n).length = n := by
  simp [buildSegments]

theorem buildSegments_getD (t : Int) (n i : Nat) (h : i < n) :
    (buildSegments t n).getD i default =
      { index := i
        start := (i : Int) * t.fdiv n
        endByte := if i < n - 1 then ((i : Int) + 1) * t.fdiv n - 1 else t - 1
        downloaded := 0
        finished := false } := by
  simp [buildSegments, List.getD_eq_getElem?_getD, List.getElem?_map, List.getElem?_range, h]

theorem buildSegments_start (t : Int) (n i : Nat) (h : i < n) :
    ((buildSegments t n).getD i default).start = (i : Int) * t.fdiv n := by
  rw [buildSegments_getD t n i h]

theorem buildSegments_endByte (t : Int) (n i : Nat) (h : i < n) :
    ((buildSegments t n).getD i default).endByte =
      if i < n - 1 then ((i : Int) + 1) * t.fdiv n - 1 else t - 1 := by
  rw [buildSegments_getD t n i h]

theorem buildSegments_covers (t : Int) (n : Nat) (ht : 0 < t) (hn : 1 ≤ n)
    (b : Int) (hb0 : 0 ≤ b) (hbt : b < t) :
    ∃ i, i < n ∧ ((buildSegments t n).getD i default).start ≤ b ∧
      b ≤ ((buildSegments t n).getD i default).endByte := by
  classical
  set s : Int := t.fdiv n with hs
  have hs0 : 0 ≤ s := Int.fdiv_nonneg (le_of_lt ht) (by positivity)
  set P : Nat → Prop := fun i => (i : Int) * s ≤ b with hP
  have hP0 : P 0 := by simp [hP, hb0]
  have hPi0 : P (Nat.findGreatest P (n - 1)) :=
    Nat.findGreatest_spec (Nat.zero_le _) hP0
  have hi0le : Nat.findGreatest P (n - 1) ≤ n - 1 := Nat.findGreatest_le _
  have hi0lt : Nat.findGreatest P (n - 1) < n := by omega
  refine ⟨Nat.findGreatest P (n - 1), hi0lt, ?_, ?_⟩
  · rw [buildSegments_start t n _ hi0lt]
    exact hPi0
  · rw [buildSegments_endByte t n _ hi0lt]
    by_cases hcase : Nat.findGreatest P (n - 1) < n - 1
    · have hnotP : ¬ P (Nat.findGreatest P (n - 1) + 1) :=
        @Nat.findGreatest_is_greatest (Nat.findGreatest P (n - 1) + 1) P _ (n - 1)
          (by omega) (by omega)
      have hlt : b < ((Nat.findGreatest P (n - 1) : Int) + 1) * s := by
        refine not_le.mp (fun hle => hnotP ?_)
        simp only [hP]
        push_cast
        exact hle
      rw [if_pos hcase, ← hs]
      linarith
    · rw [if_neg hcase]
      omega

theorem buildSegments_disjoint (t : Int) (n : Nat) (ht : 0 < t)
    (b : Int) (i j : Nat) (hi : i < n) (hj : j < n)
    (h1s : ((buildSegments t n).getD i default).start ≤ b)
    (h1e : b ≤ ((buildSegments t n).getD i default).endByte)
    (h2s : ((buildSegments t n).getD j default).start ≤ b)
    (h2e : b ≤ ((buildSegments t n).getD j default).endByte) : i = j := by
  have hs0 : 0 ≤ t.fdiv (n : Int) := Int.fdiv_nonneg (le_of_lt ht) (by positivity)
  by_contra hne
  rcases Nat.lt_or_ge i j with hij | hij
  · have hilt : i < n - 1 := by omega
    rw [buildSegments_endByte t n i hi, if_pos hilt] at h1e
    rw [buildSegments_start t n j hj] at h2s
    have hmul : ((i : Int) + 1) * t.fdiv n ≤ (j : Int) * t.fdiv n := by
      have hij2 : (i : Int) + 1 ≤ (j : Int) := by exact_mod_cast hij
      exact mul_le_mul_of_nonneg_right hij2 hs0
    linarith
  · have hji : j < i := by omega
    have hjlt : j < n - 1 := by omega
    rw [buildSegments_endByte t n j hj, if_pos hjlt] at h2e
    rw [buildSegments_start t n i hi] at h1s
    have hmul : ((j : Int) + 1) * t.fdiv n ≤ (i : Int) * t.fdiv n := by
      have hji2 : (j : Int) + 1 ≤ (i : Int) := by exact_mod_cast hji
      exact mul_le_mul_of_nonneg_right hji2 hs0
    linarith

/-- Claim C1.  For every total_size > 0 and worker_count >= 1, the segments
built by Downloader.prepare partition [0, total_size) exactly: there are
worker_count of them, segment i starts at i * (total_size // worker_count),
consecutive segments are contiguous (next start = previous end + 1, so no
gaps and no overlaps), the last segment ends at total_size - 1 absorbing the
remainder, and every byte of [0, total_size) lies in exactly one segment. -/
theorem mergen_C1_prepare_partitions (totalSize : Int) (workerCount : Nat)
    (hts : 0 < totalSize) (hwc : 1 ≤ workerCount) :
    prepareWorkerCount totalSize workerCount = workerCount ∧
    (buildSegments totalSize workerCount).length = workerCount ∧
    (∀ i, i < workerCount →
      ((buildSegments totalSize workerCount).getD i default).start
        = (i : Int) * totalSize.fdiv workerCount) ∧
    (∀ i, i + 1 < workerCount →
      ((buildSegments totalSize workerCount).getD (i + 1) default).start
        = ((buildSegments totalSize workerCount).getD i default).endByte + 1) ∧
    ((buildSegments totalSize workerCount).getD (workerCount - 1) default).endByte
      = totalSize - 1 ∧
    (∀ b : Int, 0 ≤ b → b < totalSize →
      ∃! i, i < workerCount ∧
        ((buildSegments totalSize workerCount).getD i default).start ≤ b ∧
        b ≤ ((buildSegments totalSize workerCount).getD i default).endByte) := by
  refine ⟨?_, buildSegments_length _ _, ?_, ?_, ?_, ?_⟩
  · simp [prepareWorkerCount, hts]
  · intro i hi
    exact buildSegments_start _ _ i hi
  · intro i hi
    rw [buildSegments_start _ _ (i + 1) hi, buildSegments_endByte _ _ i (by omega)]
    have hilt : i < workerCount - 1 := by omega
    simp only [hilt, if_pos]
    push_cast
    ring
  · rw [buildSegments_endByte _ _ (workerCount - 1) (by omega)]
    simp
  · intro b hb0 hbt
    obtain ⟨i, hi, his, hie⟩ := buildSegments_covers totalSize workerCount hts hwc b hb0 hbt
    refine ⟨i, ⟨hi, his, hie⟩, ?_⟩
    rintro j ⟨hj, hjs, hje⟩
    exact buildSegments_disjoint totalSize workerCount hts b j i hj hi hjs hje his hie

/-- Witness for C1 at total_size = 10, worker_count = 4. -/
theorem mergen_C1_witness :
    (0 : Int) < 10 ∧ 1 ≤ 4 ∧
    (prepareWorkerCount 10 4 = 4 ∧
    (buildSegments 10 4).length = 4 ∧
    (∀ i, i < 4 →
      ((buildSegments 10 4).getD i default).start = (i : Int) * (10 : Int).fdiv 4) ∧
    (∀ i, i + 1 < 4 →
      ((buildSegments 10 4).getD (i + 1) default).start
        = ((buildSegments 10 4).getD i default).endByte + 1) ∧
    ((buildSegments 10 4).getD (4 - 1) default).endByte = 10 - 1 ∧
    (∀ b : Int, 0 ≤ b → b < 10 →
      ∃! i, i < 4 ∧
        ((buildSegments 10 4).getD i default).start ≤ b ∧
        b ≤ ((buildSegments 10 4).getD i default).endByte)) :=
  ⟨by norm_num, by norm_num, mergen_C1_prepare_partitions 10 4 (by norm_num) (by norm_num)⟩

theorem validateSegment_start (s : Segment) : (validateSegment s).start = s.start := by
  unfold validateSegment
  dsimp only
  split <;> split <;> rfl

theorem validateSegment_endByte (s : Segment) : (validateSegment s).endByte = s.endByte := by
  unfold validateSegment
  dsimp only
  split <;> split <;> rfl

/-- Claim C2, counterexample.  validate_segments does not repair a segment
whose downloaded counter is negative, nor one whose range is degenerate
(start > end + 1): on the loaded list
`[{index 0, start 0, end 9, downloaded -1, finished false},
  {index 1, start 5, end 0, downloaded 0, finished false}]`
the first segment keeps downloaded = -1 < 0, falsifying
`0 <= downloaded <= end - start + 1` after validation. -/
theorem mergen_C2_counterexample :
    ¬ (∀ s ∈ validate_segments
        [⟨0, 0, 9, -1, false⟩, ⟨1, 5, 0, 0, false⟩],
        0 ≤ s.downloaded ∧ s.downloaded ≤ s.endByte - s.start + 1 ∧
        (s.finished = true → s.downloaded = s.endByte - s.start + 1)) := by
  decide

/-- Claim C2 (amended).  After Downloader.validate_segments runs on a loaded
segment list in which every segment has a nonnegative downloaded counter and
a well-formed range (start <= end + 1) — as holds for every list prepare or
a download run ever saves — every segment satisfies
0 <= downloaded <= end - start + 1 and finished implies
downloaded = end - start + 1; unconditionally, a segment marked finished
with downloaded below expected has finished cleared, and a segment with
downloaded above expected is clamped to expected and marked finished. -/
theorem mergen_C2_validate_segments (segs : List Segment)
    (h : ∀ s ∈ segs, 0 ≤ s.downloaded ∧ s.start ≤ s.endByte + 1) :
    (∀ s ∈ validate_segments segs,
        0 ≤ s.downloaded ∧ s.downloaded ≤ s.endByte - s.start + 1 ∧
        (s.finished = true → s.downloaded = s.endByte - s.start + 1)) ∧
    (∀ s : Segment,
        (s.finished = true ∧ s.downloaded < s.endByte - s.start + 1 →
          (validateSegment s).finished = false) ∧
        (s.downloaded > s.endByte - s.start + 1 →
          (validateSegment s).downloaded = s.endByte - s.start + 1 ∧
          (validateSegment s).finished = true)) := by
  constructor
  · intro s hs
    rw [validate_segments, List.mem_map] at hs
    obtain ⟨x, hx, rfl⟩ := hs
    obtain ⟨hd0, hrange⟩ := h x hx
    by_cases hfin : x.finished <;>
      by_cases hlt : x.downloaded < x.endByte - x.start + 1 <;>
      by_cases hover : x.downloaded > x.endByte - x.start + 1 <;>
      simp [validateSegment, hfin, hlt, hover] <;>
      omega
  · intro s
    constructor
    · rintro ⟨hfin, hlt⟩
      have hno : ¬ (s.downloaded > s.endByte - s.start + 1) := by omega
      simp [validateSegment, hfin, hlt, hno]
    · intro hover
      have hnlt : ¬ (s.downloaded < s.endByte - s.start + 1) := by omega
      by_cases hfin : s.finished <;>
        simp [validateSegment, hfin, hnlt, hover]

/-- Witness for C2 at a concrete well-formed loaded list. -/
theorem mergen_C2_witness :
    (∀ s ∈ [(⟨0, 0, 4, 5, true⟩ : Segment), ⟨1, 5, 9, 2, true⟩, ⟨2, 10, 14, 99, false⟩],
        0 ≤ s.downloaded ∧ s.start ≤ s.endByte + 1) ∧
    (∀ s ∈ validate_segments
        [(⟨0, 0, 4, 5, true⟩ : Segment), ⟨1, 5, 9, 2, true⟩, ⟨2, 10, 14, 99, false⟩],
        0 ≤ s.downloaded ∧ s.downloaded ≤ s.endByte - s.start + 1 ∧
        (s.finished = true → s.downloaded = s.endByte - s.start + 1)) :=
  ⟨by decide,
   (mergen_C2_validate_segments
      [⟨0, 0, 4, 5, true⟩, ⟨1, 5, 9, 2, true⟩, ⟨2, 10, 14, 99, false⟩]
      (by decide)).1⟩

/-- Claim C3, counterexample.  A probe response with no Content-Range header
but Content-Length 2097152, with worker_count configured to 4, does NOT fall
back to a single segment: prepare builds 4 segments.  The single-worker
fallback in the code keys on total_size = 0 only, not on missing range
support. -/
theorem mergen_C3_counterexample :
    (prepareSegments none (some 2097152) 4).length = 4 ∧
    ¬ (prepareSegments none (some 2097152) 4).length = 1 := by
  decide

/-- Claim C3 (amended).  Downloader.prepare falls back to a single segment
only when the detected total size is not positive: when the probe carries no
Content-Range header the total size is taken from Content-Length (default 0),
and whenever that size is positive prepare still builds worker_count
segments; a 200 response with Content-Length 2097152 and no range support
therefore yields worker_count segments, and one segment only when the
detected size is zero. -/
theorem mergen_C3_single_segment_fallback (contentRange contentLength : Option Int)
    (workerCount : Nat) :
    detectTotalSize none contentLength = contentLength.getD 0 ∧
    (detectTotalSize contentRange contentLength ≤ 0 →
      (prepareSegments contentRange contentLength workerCount).length = 1) ∧
    (0 < detectTotalSize contentRange contentLength →
      (prepareSegments contentRange contentLength workerCount).length = workerCount) := by
  refine ⟨rfl, ?_, ?_⟩
  · intro h0
    rw [prepareSegments, buildSegments_length, prepareWorkerCount, if_neg (by omega)]
  · intro hpos
    rw [prepareSegments, buildSegments_length, prepareWorkerCount, if_pos hpos]

/-- Witness for C3 at the scenario input: no Content-Range,
Content-Length 2097152, worker_count 4. -/
theorem mergen_C3_witness :
    0 < detectTotalSize none (some 2097152) ∧
    (prepareSegments none (some 2097152) 4).length = 4 :=
  ⟨by decide, (mergen_C3_single_segment_fallback none (some 2097152) 4).2.2 (by decide)⟩

/-! ## Persisted-state saves (downloader.py save_state, download_manager.py save_state)

To compare the two save paths we model the sequence of filesystem
operations each performs, together with a crash semantics: a crash can hit
before any operation, or in the middle of a write (leaving a truncated
file); a rename is atomic. -/

/-- Content of a file in the crash model: the bytes the target held before
the save, the complete freshly serialized JSON, or a truncated partial
write. -/
inductive FileData
  | oldData
  | newData
  | truncated
deriving Repr, DecidableEq

/-- A filesystem operation issued by a save routine. Every write in a save
writes the freshly serialized JSON, so the write carries no payload. -/
inductive FsOp
  | write (path : String)
  | rename (src : String) (dst : String)
deriving Repr, DecidableEq

def FileSystem := List (String × FileData)

def lookupFile : List (String × FileData) → String → Option FileData
  | [], _ => none
  | e :: rest, p => if e.1 = p then some e.2 else lookupFile rest p

def setFile (fs : List (String × FileData)) (p : String) (d : FileData) :
    List (String × FileData) :=
  (p, d) :: fs

def removeFile (fs : List (String × FileData)) (p : String) :
    List (String × FileData) :=
  fs.filter (fun e => decide (e.1 ≠ p))

def renameFile (fs : List (String × FileData)) (src dst : String) :
    List (String × FileData) :=
  match lookupFile fs src with
  | some d => setFile (removeFile fs src) dst d
  | none => fs

/-- All filesystem states reachable when a crash interrupts the plan at any
point (including not at all): before each operation, in the middle of a
write (target of the write left truncated), or after completion.  Renames
are atomic, so they contribute no intermediate state. -/
def crashStates (fs : List (String × FileData)) : List FsOp → List (List (String × FileData))
  | [] => [fs]
  | FsOp.write p :: rest =>
      fs :: setFile fs p FileData.truncated :: crashStates (setFile fs p FileData.newData) rest
  | FsOp.rename src dst :: rest =>
      fs :: crashStates (renameFile fs src dst) rest

/-- Character-level splitting (String.splitOn does not reduce in the
kernel, so path manipulation is done on character lists). -/
def splitOnChar (c : Char) : List Char → List (List Char)
  | [] => [[]]
  | x :: rest =>
    match splitOnChar c rest with
    | [] => [[]]
    | g :: gs => if x = c then [] :: g :: gs else (x :: g) :: gs

def joinWithChar (c : Char) : List (List Char) → List Char
  | [] => []
  | [g] => g
  | g :: gs => g ++ c :: joinWithChar c gs

/-- Embedding of pathlib's Path.with_suffix, used by
DownloadManager.save_state: the last dot-suffix of the final path component
(a dot at position 0 of the name does not start a suffix) is replaced by
the new suffix; a name without a suffix has the new one appended. -/
def withSuffix (p : String) (newSuffix : String) : String :=
  let comps := splitOnChar '/' p.toList
  let name := comps.getLastD []
  let dotIdxs := (List.range name.length).filter (fun i => 0 < i && name.getD i ' ' == '.')
  let stem := match dotIdxs.getLast? with
    | some i => name.take i
    | none => name
  String.mk (joinWithChar '/' (comps.dropLast ++ [stem ++ newSuffix.toList]))

/-- Embedding of Downloader.save_state (downloader.py lines 189-199): the
JSON is dumped straight into the state file —

    with open(self.state_file, "w") as f:
        json.dump(data, f)

with no temporary file and no rename. -/
def downloaderSavePlan (stateFile : String) : List FsOp :=
  [FsOp.write stateFile]

/-- Embedding of DownloadManager.save_state (download_manager.py lines
75-93):

    temp_file = self.state_file.with_suffix(".tmp")
    temp_file.write_text(json.dumps(state, indent=2))
    temp_file.replace(self.state_file) -/
def managerSavePlan (stateFile : String) : List FsOp :=
  [FsOp.write (withSuffix stateFile ".tmp"),
   FsOp.rename (withSuffix stateFile ".tmp") stateFile]

theorem lookupFile_setFile_self (fs : List (String × FileData)) (p : String) (d : FileData) :
    lookupFile (setFile fs p d) p = some d := by
  simp [setFile, lookupFile]

theorem lookupFile_setFile_ne (fs : List (String × FileData)) (p q : String) (d : FileData)
    (h : q ≠ p) : lookupFile (setFile fs q d) p = lookupFile fs p := by
  simp [setFile, lookupFile, h]

/-- Claim C4, counterexample.  The per-download .progress snapshot saved by
Downloader.save_state is written directly to the target: its plan contains
no temporary-file write and no rename, and a crash in the middle of the
write leaves the .progress file truncated. -/
theorem mergen_C4_counterexample :
    (∀ op ∈ downloaderSavePlan "d41d8cd98f00b204.progress",
        op = FsOp.write "d41d8cd98f00b204.progress") ∧
    ∃ fs ∈ crashStates [("d41d8cd98f00b204.progress", FileData.oldData)]
        (downloaderSavePlan "d41d8cd98f00b204.progress"),
      lookupFile fs "d41d8cd98f00b204.progress" = some FileData.truncated := by
  decide

/-- Claim C4 (amended).  Only the registry save is atomic: DownloadManager.
save_state writes the JSON to the state file path with its suffix replaced
by .tmp and renames it over the target, so under any crash the registry
file holds either its old or the complete new content; Downloader.
save_state writes the per-download .progress file in place, so a crash
mid-save can leave that file truncated. -/
theorem mergen_C4_atomic_saves (stateFile : String) (init : List (String × FileData))
    (h : withSuffix stateFile ".tmp" ≠ stateFile) :
    (∀ fs ∈ crashStates init (managerSavePlan stateFile),
        lookupFile fs stateFile = lookupFile init stateFile ∨
        lookupFile fs stateFile = some FileData.newData) ∧
    (∃ fs ∈ crashStates [(stateFile, FileData.oldData)] (downloaderSavePlan stateFile),
        lookupFile fs stateFile = some FileData.truncated) := by
  constructor
  · intro fs hfs
    simp only [managerSavePlan, crashStates, renameFile, lookupFile_setFile_self,
      List.mem_cons, List.mem_singleton, List.not_mem_nil, or_false] at hfs
    rcases hfs with rfl | rfl | rfl | rfl
    · left
      rfl
    · left
      exact lookupFile_setFile_ne _ _ _ _ h
    · left
      exact lookupFile_setFile_ne _ _ _ _ h
    · right
      exact lookupFile_setFile_self _ _ _
  · refine ⟨setFile [(stateFile, FileData.oldData)] stateFile FileData.truncated, ?_, ?_⟩
    · simp [downloaderSavePlan, crashStates]
    · exact lookupFile_setFile_self _ _ _

/-- Witness for C4 at the registry file history.json. -/
theorem mergen_C4_witness :
    withSuffix "history.json" ".tmp" ≠ "history.json" ∧
    (∀ fs ∈ crashStates [("history.json", FileData.oldData)]
        (managerSavePlan "history.json"),
      lookupFile fs "history.json"
          = lookupFile [("history.json", FileData.oldData)] "history.json" ∨
      lookupFile fs "history.json" = some FileData.newData) :=
  ⟨by decide,
   (mergen_C4_atomic_saves "history.json" [("history.json", FileData.oldData)] (by decide)).1⟩

/-! ## Queue deletion (queue_manager.py delete_queue) -/

/-- Embedding of the comparison `name == DEFAULT_QUEUE_NAME` in
QueueManager.delete_queue (queue_manager.py line 101).  In the source,
DEFAULT_QUEUE_NAME is a function (queue_manager.py lines 14-15:
`def DEFAULT_QUEUE_NAME(): return I18n.get("main_queue")`), and the
comparison omits the call parentheses, so Python compares the name string
with the function object itself; that comparison is False for every
string. -/
def nameEqualsDefaultQueueFunction (_ : String) : Bool := false

/-- Embedding of QueueManager.delete_queue (queue_manager.py lines 98-130),
restricted to its effect on the set of queue names in the config (stopping
the queue if active and emitting the deleted signal do not change the
queue-name set).  Returns the Python return value and the new queue set. -/
def delete_queue (name : String) (queues : List String) : Bool × List String :=
  if nameEqualsDefaultQueueFunction name then (false, queues)
  else if ¬ (name ∈ queues) then (false, queues)
  else (true, queues.erase name)

/-- Claim C5, evaluation at the failing input.  With the default
configuration (queues = ["Main Queue"], optionally plus another queue),
delete_queue applied to the default queue's own name returns True and
removes the default queue from the queue set: the deletion protection
`name == DEFAULT_QUEUE_NAME` compares the string against the
DEFAULT_QUEUE_NAME function object (the call parentheses are missing in
the source), so it never fires. -/
theorem mergen_C5_delete_default_queue :
    delete_queue "Main Queue" ["Main Queue", "Work"] = (true, ["Work"]) ∧
    delete_queue "Main Queue" ["Main Queue"] = (true, []) := by
  decide

/-! ## Queue scheduler (queue_manager.py start_queue / on_download_complete /
_process_queue)

The scheduler state consists of the download-item list shared with the
main window, the id set of in-flight downloads (keys of the
active_downloads dict), and the set of active queue names. -/

structure QItem where
  id : Nat
  queue : String
  status : String
  queuePosition : Int
deriving Repr, DecidableEq

structure SchedulerState where
  items : List QItem
  activeDownloads : List Nat
  activeQueues : List String
deriving Repr, DecidableEq

/-- Statuses counted as in flight by _process_queue (queue_manager.py line
209): `d.status in ["Downloading", "Downloading..."]`. -/
def isActiveStatus (s : String) : Bool :=
  s == "Downloading" || s == "Downloading..."

/-- Statuses eligible for dispatch (queue_manager.py line 220):
`d.status in ["Pending", "Stopped", "Failed", "Queued"]`. -/
def isPendingStatus (s : String) : Bool :=
  s == "Pending" || s == "Stopped" || s == "Failed" || s == "Queued"

/-- Key insertion into the active_downloads dict:
`self.active_downloads[item.id] = True`. -/
def insertKey (k : Nat) (ks : List Nat) : List Nat :=
  if k ∈ ks then ks else k :: ks

/-- Stable ascending insertion by queue_position, modelling
`pending.sort(key=lambda x: x.queue_position)` (queue_manager.py line
221); Python's sort is stable and ascending. -/
def insertByPos (x : QItem) : List QItem → List QItem
  | [] => [x]
  | y :: ys =>
      if x.queuePosition ≤ y.queuePosition then x :: y :: ys else y :: insertByPos x ys

def sortByPos : List QItem → List QItem
  | [] => []
  | x :: xs => insertByPos x (sortByPos xs)

/-- Effect of starting one item (queue_manager.py lines 229-230): the
scheduler records the id in active_downloads, and the start callback
(main_window.py start_download_item, lines 546-549) sets the item status
to "Downloading...". -/
def startItem (st : SchedulerState) (it : QItem) : SchedulerState :=
  { st with
    items := st.items.map (fun d =>
      if d.id = it.id then { d with status := "Downloading..." } else d)
    activeDownloads := insertKey it.id st.activeDownloads }

def startItems (st : SchedulerState) : List QItem → SchedulerState
  | [] => st
  | it :: rest => startItems (startItem st it) rest

/-- Items a call to _process_queue starts (queue_manager.py lines 196-231):
nothing when the queue is inactive or no capacity remains, else the first
can_start pending items of the queue in ascending queue_position order. -/
def dispatchList (queueCap : String → Nat) (maxGlobal : Nat) (name : String)
    (st : SchedulerState) : List QItem :=
  if ¬ (name ∈ st.activeQueues) then [] else
  let queueItems := st.items.filter (fun d => d.queue == name)
  let activeInQueue := (queueItems.filter (fun d =>
      isActiveStatus d.status || st.activeDownloads.contains d.id)).length
  let totalActive := st.activeDownloads.length
  let canStart : Int :=
    min ((queueCap name : Int) - activeInQueue) ((maxGlobal : Int) - totalActive)
  if canStart ≤ 0 then [] else
  let pending := sortByPos (queueItems.filter (fun d => isPendingStatus d.status))
  pending.take canStart.toNat

/-- Embedding of QueueManager._process_queue (queue_manager.py lines
196-231). -/
def processQueue (queueCap : String → Nat) (maxGlobal : Nat) (name : String)
    (st : SchedulerState) : SchedulerState :=
  startItems st (dispatchList queueCap maxGlobal name st)

/-- Embedding of QueueManager.start_queue (queue_manager.py lines 154-170):
a no-op when the queue is already active, else the queue is marked active
and an initial batch is dispatched. -/
def start_queue (queueCap : String → Nat) (maxGlobal : Nat) (name : String)
    (st : SchedulerState) : SchedulerState :=
  if name ∈ st.activeQueues then st
  else processQueue queueCap maxGlobal name
    { st with activeQueues := name :: st.activeQueues }

/-- Embedding of QueueManager.on_download_complete (queue_manager.py lines
178-194) together with its caller main_window.update_download_status
(main_window.py lines 566-582), which sets the completed item's status to a
terminal string before notifying the scheduler: the id leaves
active_downloads and, when the item's queue is still active, the queue is
re-processed. -/
def on_download_complete (queueCap : String → Nat) (maxGlobal : Nat)
    (completed : QItem) (finalStatus : String) (st : SchedulerState) : SchedulerState :=
  let st1 : SchedulerState :=
    { st with
      items := st.items.map (fun d =>
        if d.id = completed.id then { d with status := finalStatus } else d)
      activeDownloads := st.activeDownloads.erase completed.id }
  if completed.queue ∈ st1.activeQueues then processQueue queueCap maxGlobal completed.queue st1
  else st1

/-- A scheduler step: the user starts a queue, or a running download
finishes (with the terminal status its completion handler assigns). -/
inductive SchedOp
  | startQueue (name : String)
  | complete (item : QItem) (finalStatus : String)
deriving Repr, DecidableEq

/-- A completion step never assigns an in-flight status: the completion
handler sets "complete"/"failed" strings. -/
def opWellFormed : SchedOp → Bool
  | SchedOp.startQueue _ => true
  | SchedOp.complete _ finalStatus => !(isActiveStatus finalStatus)

def applyOp (queueCap : String → Nat) (maxGlobal : Nat) (st : SchedulerState) :
    SchedOp → SchedulerState
  | SchedOp.startQueue name => start_queue queueCap maxGlobal name st
  | SchedOp.complete item finalStatus =>
      on_download_complete queueCap maxGlobal item finalStatus st

def runOps (queueCap : String → Nat) (maxGlobal : Nat) :
    List SchedOp → SchedulerState → SchedulerState
  | [], st => st
  | op :: rest, st => runOps queueCap maxGlobal rest (applyOp queueCap maxGlobal st op)

/-- Number of items of queue q counted as in flight, exactly as
_process_queue counts them (status in flight or id tracked in
active_downloads). -/
def countActiveInQueue (st : SchedulerState) (q : String) : Nat :=
  (st.items.filter (fun d =>
    d.queue == q && (isActiveStatus d.status || st.activeDownloads.contains d.id))).length

theorem insertByPos_perm (x : QItem) (l : List QItem) :
    List.Perm (insertByPos x l) (x :: l) := by
  induction l with
  | nil => rfl
  | cons y ys ih =>
      rw [insertByPos]
      split
      · rfl
      · exact ((ih.cons y).trans (List.Perm.swap x y ys)).symm.symm

theorem sortByPos_perm (l : List QItem) : List.Perm (sortByPos l) l := by
  induction l with
  | nil => rfl
  | cons x xs ih =>
      rw [sortByPos]
      exact (insertByPos_perm x (sortByPos xs)).trans (ih.cons x)

theorem insertByPos_pairwise (x : QItem) (l : List QItem)
    (h : l.Pairwise (fun a b => a.queuePosition ≤ b.queuePosition)) :
    (insertByPos x l).Pairwise (fun a b => a.queuePosition ≤ b.queuePosition) := by
  induction l with
  | nil => simp [insertByPos]
  | cons y ys ih =>
      rw [insertByPos]
      rcases List.pairwise_cons.mp h with ⟨hy, hys⟩
      split
      · rename_i hle
        refine List.pairwise_cons.mpr ⟨?_, h⟩
        intro b hb
        rcases List.mem_cons.mp hb with rfl | hb
        · exact hle
        · exact le_trans hle (hy b hb)
      · rename_i hnle
        refine List.pairwise_cons.mpr ⟨?_, ih hys⟩
        intro b hb
        have hb2 := (insertByPos_perm x ys).mem_iff.mp hb
        rcases List.mem_cons.mp hb2 with rfl | hb2
        · exact le_of_not_le hnle
        · exact hy b hb2

theorem sortByPos_pairwise (l : List QItem) :
    (sortByPos l).Pairwise (fun a b => a.queuePosition ≤ b.queuePosition) := by
  induction l with
  | nil => exact List.Pairwise.nil
  | cons x xs ih => exact insertByPos_pairwise x (sortByPos xs) ih

theorem countP_or_le (l : List QItem) (p q : QItem → Bool) :
    l.countP (fun a => p a || q a) ≤ l.countP p + l.countP q := by
  induction l with
  | nil => simp
  | cons x xs ih =>
      by_cases hp : p x <;> by_cases hq : q x <;>
        simp [List.countP_cons, hp, hq] <;> omega

theorem countP_id_le_one (l : List QItem) (v : Nat)
    (h : (l.map QItem.id).Nodup) : l.countP (fun a => a.id == v) ≤ 1 := by
  induction l with
  | nil => simp
  | cons x xs ih =>
      rw [List.map_cons, List.nodup_cons] at h
      by_cases hx : x.id = v
      · have hz : xs.countP (fun a => a.id == v) = 0 := by
          rw [List.countP_eq_zero]
          intro a ha
          simp only [beq_iff_eq]
          intro hav
          refine h.1 ?_
          have : a.id ∈ List.map QItem.id xs := List.mem_map_of_mem QItem.id ha
          rwa [hav, ← hx] at this
        simp [List.countP_cons, hx, hz]
      · simp only [List.countP_cons, beq_iff_eq, hx, if_false]
        simpa using ih h.2

theorem length_insertKey_le (k : Nat) (ks : List Nat) :
    (insertKey k ks).length ≤ ks.length + 1 := by
  rw [insertKey]
  split <;> simp

theorem mem_insertKey_of_mem (k j : Nat) (ks : List Nat) (h : j ∈ ks) :
    j ∈ insertKey k ks := by
  rw [insertKey]
  split
  · exact h
  · exact List.mem_cons_of_mem k h

theorem mem_insertKey_self (k : Nat) (ks : List Nat) : k ∈ insertKey k ks := by
  rw [insertKey]
  split
  · assumption
  · exact List.mem_cons_self k ks

/-- The scheduler's cap invariant: at most maxGlobal downloads in flight
overall, and within each queue at most that queue's cap. -/
def SchedInv (queueCap : String → Nat) (maxGlobal : Nat) (st : SchedulerState) : Prop :=
  st.activeDownloads.length ≤ maxGlobal ∧ ∀ q, countActiveInQueue st q ≤ queueCap q

/-- Every item carrying an in-flight status is tracked in
active_downloads. -/
def Consistent (st : SchedulerState) : Prop :=
  ∀ d ∈ st.items, isActiveStatus d.status = true → d.id ∈ st.activeDownloads

theorem startItem_ids (st : SchedulerState) (it : QItem) :
    (startItem st it).items.map QItem.id = st.items.map QItem.id := by
  simp only [startItem, List.map_map]
  apply List.map_congr_left
  intro d _
  by_cases h : d.id = it.id <;> simp [h]

theorem startItem_activeQueues (st : SchedulerState) (it : QItem) :
    (startItem st it).activeQueues = st.activeQueues := rfl

theorem startItem_consistent (st : SchedulerState) (it : QItem) (h : Consistent st) :
    Consistent (startItem st it) := by
  intro d hd hact
  simp only [startItem, List.mem_map] at hd
  obtain ⟨x, hx, rfl⟩ := hd
  by_cases hid : x.id = it.id
  · simp only [hid, if_pos rfl, startItem]
    exact mem_insertKey_self it.id st.activeDownloads
  · simp only [if_neg hid] at hact ⊢
    simp only [startItem]
    exact mem_insertKey_of_mem _ _ _ (h x hx hact)

theorem mem_startItem_items (st : SchedulerState) (it : QItem) (x : QItem)
    (hx : x ∈ st.items) (hne : x.id ≠ it.id) : x ∈ (startItem st it).items := by
  simp only [startItem]
  have := List.mem_map_of_mem
    (fun d => if d.id = it.id then { d with status := "Downloading..." } else d) hx
  simpa [if_neg hne] using this

theorem contains_insertKey_iff (k j : Nat) (ks : List Nat) :
    (insertKey k ks).contains j = true ↔ j = k ∨ j ∈ ks := by
  rw [insertKey]
  split
  · rename_i hk
    simp only [List.elem_eq_mem, decide_eq_true_eq]
    constructor
    · intro h
      exact Or.inr h
    · rintro (rfl | h)
      · exact hk
      · exact h
  · simp only [List.elem_eq_mem, decide_eq_true_eq, List.mem_cons]

theorem countActive_eq_countP (st : SchedulerState) (q : String) :
    countActiveInQueue st q = st.items.countP (fun d =>
      d.queue == q && (isActiveStatus d.status || st.activeDownloads.contains d.id)) := by
  rw [countActiveInQueue]
  exact (List.countP_eq_length_filter _ _).symm


theorem countActive_startItem_le (st : SchedulerState) (it : QItem) (q : String)
    (hit : it ∈ st.items) (hnodup : (st.items.map QItem.id).Nodup) :
    countActiveInQueue (startItem st it) q ≤
      countActiveInQueue st q + (if it.queue == q then 1 else 0) := by
  have hform : countActiveInQueue (startItem st it) q
      = st.items.countP (fun d =>
          (if d.id = it.id then { d with status := "Downloading..." } else d).queue == q &&
          (isActiveStatus
              (if d.id = it.id then { d with status := "Downloading..." } else d).status ||
            (insertKey it.id st.activeDownloads).contains
              (if d.id = it.id then { d with status := "Downloading..." } else d).id)) := by
    rw [countActive_eq_countP]
    simp only [startItem, List.countP_map]
    rfl
  rw [hform, countActive_eq_countP]
  by_cases hq : it.queue == q
  · rw [if_pos hq]
    have step1 : st.items.countP (fun d =>
        (if d.id = it.id then { d with status := "Downloading..." } else d).queue == q &&
          (isActiveStatus
              (if d.id = it.id then { d with status := "Downloading..." } else d).status ||
            (insertKey it.id st.activeDownloads).contains
              (if d.id = it.id then { d with status := "Downloading..." } else d).id)) ≤
        st.items.countP (fun d =>
          (d.queue == q && (isActiveStatus d.status || st.activeDownloads.contains d.id)) ||
            d.id == it.id) := by
      apply List.countP_mono_left
      intro d _ hpred
      by_cases hid : d.id = it.id
      · simp [hid]
      · simp only [if_neg hid] at hpred
        simp only [Bool.and_eq_true, Bool.or_eq_true, beq_iff_eq] at hpred ⊢
        obtain ⟨hqd, hrest⟩ := hpred
        refine Or.inl ⟨hqd, ?_⟩
        rcases hrest with hact | hcont
        · exact Or.inl hact
        · rcases (contains_insertKey_iff it.id d.id st.activeDownloads).mp hcont with
            heq | hmem
          · exact absurd heq hid
          · refine Or.inr ?_
            simp only [List.elem_eq_mem, decide_eq_true_eq]
            exact hmem
    have step2 := countP_or_le st.items
      (fun d => d.queue == q && (isActiveStatus d.status || st.activeDownloads.contains d.id))
      (fun d => d.id == it.id)
    have step3 := countP_id_le_one st.items it.id hnodup
    omega
  · rw [if_neg hq]
    have step1 : st.items.countP (fun d =>
        (if d.id = it.id then { d with status := "Downloading..." } else d).queue == q &&
          (isActiveStatus
              (if d.id = it.id then { d with status := "Downloading..." } else d).status ||
            (insertKey it.id st.activeDownloads).contains
              (if d.id = it.id then { d with status := "Downloading..." } else d).id)) ≤
        st.items.countP (fun d =>
          d.queue == q && (isActiveStatus d.status || st.activeDownloads.contains d.id)) := by
      apply List.countP_mono_left
      intro d hd hpred
      by_cases hid : d.id = it.id
      · have hdit : d = it := List.inj_on_of_nodup_map hnodup hd hit hid
        simp only [Bool.and_eq_true] at hpred
        obtain ⟨hqd, _⟩ := hpred
        simp only [hid, if_pos] at hqd
        simp only [hdit] at hqd
        exact absurd hqd (by simpa using hq)
      · simp only [if_neg hid] at hpred
        simp only [Bool.and_eq_true, Bool.or_eq_true] at hpred ⊢
        obtain ⟨hqd, hrest⟩ := hpred
        refine ⟨hqd, ?_⟩
        rcases hrest with hact | hcont
        · exact Or.inl hact
        · rcases (contains_insertKey_iff it.id d.id st.activeDownloads).mp hcont with
            heq | hmem
          · exact absurd heq hid
          · refine Or.inr ?_
            simp only [List.elem_eq_mem, decide_eq_true_eq]
            exact hmem
    omega

theorem startItems_spec (l : List QItem) : ∀ (st : SchedulerState) (name : String),
    (∀ x ∈ l, x ∈ st.items ∧ x.queue = name) →
    (l.map QItem.id).Nodup →
    (st.items.map QItem.id).Nodup →
    Consistent st →
    (startItems st l).items.map QItem.id = st.items.map QItem.id ∧
    Consistent (startItems st l) ∧
    (startItems st l).activeDownloads.length ≤ st.activeDownloads.length + l.length ∧
    (∀ q, countActiveInQueue (startItems st l) q ≤
        countActiveInQueue st q + (if name == q then l.length else 0)) ∧
    (startItems st l).activeQueues = st.activeQueues := by
  induction l with
  | nil =>
      intro st name _ _ _ hcons
      refine ⟨rfl, hcons, ?_, fun q => ?_, rfl⟩
      · simp [startItems]
      · simp only [startItems, List.length_nil]
        split <;> omega
  | cons it rest ih =>
      intro st name hmem hnodupl hnodup hcons
      have hit : it ∈ st.items := (hmem it (List.mem_cons_self it rest)).1
      have hitq : it.queue = name := (hmem it (List.mem_cons_self it rest)).2
      have hids2 : (startItem st it).items.map QItem.id = st.items.map QItem.id :=
        startItem_ids st it
      have hnodup2 : ((startItem st it).items.map QItem.id).Nodup := by
        rw [hids2]
        exact hnodup
      have hcons2 : Consistent (startItem st it) := startItem_consistent st it hcons
      have hnodupl2 : (rest.map QItem.id).Nodup := by
        rw [List.map_cons, List.nodup_cons] at hnodupl
        exact hnodupl.2
      have hmem2 : ∀ x ∈ rest, x ∈ (startItem st it).items ∧ x.queue = name := by
        intro x hx
        have hxm := hmem x (List.mem_cons_of_mem it hx)
        have hxid : x.id ≠ it.id := by
          intro he
          rw [List.map_cons, List.nodup_cons] at hnodupl
          refine hnodupl.1 ?_
          have := List.mem_map_of_mem QItem.id hx
          rwa [he] at this
        exact ⟨mem_startItem_items st it x hxm.1 hxid, hxm.2⟩
      obtain ⟨ih1, ih2, ih3, ih4, ih5⟩ :=
        ih (startItem st it) name hmem2 hnodupl2 hnodup2 hcons2
      have hstep : startItems st (it :: rest) = startItems (startItem st it) rest := rfl
      rw [hstep]
      refine ⟨ih1.trans hids2, ih2, ?_, ?_, ih5.trans (startItem_activeQueues st it)⟩
      · have h1 : (startItem st it).activeDownloads.length ≤ st.activeDownloads.length + 1 :=
          length_insertKey_le it.id st.activeDownloads
        simp only [List.length_cons]
        omega
      · intro q
        have hone := countActive_startItem_le st it q hit hnodup
        have hrest := ih4 q
        rw [hitq] at hone
        by_cases hnq : name == q
        · rw [if_pos hnq] at hone hrest ⊢
          simp only [List.length_cons]
          omega
        · rw [if_neg hnq] at hone hrest ⊢
          omega

theorem activeInQueue_eq (st : SchedulerState) (name : String) :
    ((st.items.filter (fun d => d.queue == name)).filter (fun d =>
        isActiveStatus d.status || st.activeDownloads.contains d.id)).length
      = countActiveInQueue st name := by
  rw [List.filter_filter, countActiveInQueue]
  rw [← List.countP_eq_length_filter, ← List.countP_eq_length_filter]
  apply List.countP_congr
  intro a _
  simp [Bool.and_comm]

theorem dispatchList_mem (cap : String → Nat) (maxG : Nat) (name : String)
    (st : SchedulerState) :
    ∀ x ∈ dispatchList cap maxG name st,
      x ∈ st.items ∧ x.queue = name ∧ isPendingStatus x.status = true := by
  intro x hx
  simp only [dispatchList] at hx
  split at hx
  · simp at hx
  · split at hx
    · simp at hx
    · have hx2 : x ∈ sortByPos ((st.items.filter (fun d => d.queue == name)).filter
          (fun d => isPendingStatus d.status)) := List.take_subset _ _ hx
      have hx3 := (sortByPos_perm _).subset hx2
      rw [List.mem_filter] at hx3
      obtain ⟨hx4, hpend⟩ := hx3
      rw [List.mem_filter] at hx4
      obtain ⟨hmem, hque⟩ := hx4
      exact ⟨hmem, by simpa using hque, hpend⟩

theorem dispatchList_nodup (cap : String → Nat) (maxG : Nat) (name : String)
    (st : SchedulerState) (hnodup : (st.items.map QItem.id).Nodup) :
    ((dispatchList cap maxG name st).map QItem.id).Nodup := by
  simp only [dispatchList]
  split
  · simp
  · split
    · simp
    · have h1 : ((st.items.filter (fun d => d.queue == name)).filter
          (fun d => isPendingStatus d.status)).Sublist st.items :=
        (List.filter_sublist _).trans (List.filter_sublist _)
      have h3 : (((st.items.filter (fun d => d.queue == name)).filter
          (fun d => isPendingStatus d.status)).map QItem.id).Nodup :=
        hnodup.sublist (h1.map QItem.id)
      have h4 : ((sortByPos ((st.items.filter (fun d => d.queue == name)).filter
          (fun d => isPendingStatus d.status))).map QItem.id).Nodup :=
        (((sortByPos_perm _).map QItem.id).nodup_iff).mpr h3
      exact h4.sublist ((List.take_sublist _ _).map QItem.id)

theorem dispatchList_sorted (cap : String → Nat) (maxG : Nat) (name : String)
    (st : SchedulerState) :
    (dispatchList cap maxG name st).Pairwise
      (fun a b => a.queuePosition ≤ b.queuePosition) := by
  simp only [dispatchList]
  split
  · simp
  · split
    · simp
    · exact (sortByPos_pairwise _).sublist (List.take_sublist _ _)

theorem dispatchList_capacity (cap : String → Nat) (maxG : Nat) (name : String)
    (st : SchedulerState) :
    dispatchList cap maxG name st = [] ∨
    (countActiveInQueue st name + (dispatchList cap maxG name st).length ≤ cap name ∧
     st.activeDownloads.length + (dispatchList cap maxG name st).length ≤ maxG) := by
  simp only [dispatchList]
  split
  · exact Or.inl rfl
  · split
    · exact Or.inl rfl
    · rename_i hq hpos
      right
      rw [not_le] at hpos
      have haiq := activeInQueue_eq st name
      have hlen : ((sortByPos ((st.items.filter (fun d => d.queue == name)).filter
          (fun d => isPendingStatus d.status))).take
            (min ((cap name : Int)
              - ((st.items.filter (fun d => d.queue == name)).filter (fun d =>
                  isActiveStatus d.status || st.activeDownloads.contains d.id)).length)
              ((maxG : Int) - st.activeDownloads.length)).toNat).length ≤
          (min ((cap name : Int)
              - ((st.items.filter (fun d => d.queue == name)).filter (fun d =>
                  isActiveStatus d.status || st.activeDownloads.contains d.id)).length)
              ((maxG : Int) - st.activeDownloads.length)).toNat :=
        List.length_take_le _ _
      have hmin1 := min_le_left ((cap name : Int)
          - ((st.items.filter (fun d => d.queue == name)).filter (fun d =>
              isActiveStatus d.status || st.activeDownloads.contains d.id)).length)
          ((maxG : Int) - st.activeDownloads.length)
      have hmin2 := min_le_right ((cap name : Int)
          - ((st.items.filter (fun d => d.queue == name)).filter (fun d =>
              isActiveStatus d.status || st.activeDownloads.contains d.id)).length)
          ((maxG : Int) - st.activeDownloads.length)
      constructor <;> omega

theorem processQueue_preserves (cap : String → Nat) (maxG : Nat) (name : String)
    (st : SchedulerState)
    (hnodup : (st.items.map QItem.id).Nodup) (hcons : Consistent st)
    (hinv : SchedInv cap maxG st) :
    (processQueue cap maxG name st).items.map QItem.id = st.items.map QItem.id ∧
    Consistent (processQueue cap maxG name st) ∧
    SchedInv cap maxG (processQueue cap maxG name st) := by
  have hmem := dispatchList_mem cap maxG name st
  have hnodupl := dispatchList_nodup cap maxG name st hnodup
  obtain ⟨h1, h2, h3, h4, _⟩ := startItems_spec (dispatchList cap maxG name st) st name
    (fun x hx => ⟨(hmem x hx).1, (hmem x hx).2.1⟩) hnodupl hnodup hcons
  have heq : processQueue cap maxG name st = startItems st (dispatchList cap maxG name st) :=
    rfl
  rw [heq]
  refine ⟨h1, h2, ?_, ?_⟩
  · rcases dispatchList_capacity cap maxG name st with hemp | ⟨_, hglob⟩
    · rw [hemp]
      simp only [startItems]
      exact hinv.1
    · omega
  · intro q
    have h4q := h4 q
    by_cases hnq : name == q
    · have hqe : name = q := by simpa using hnq
      subst hqe
      rw [if_pos hnq] at h4q
      rcases dispatchList_capacity cap maxG name st with hemp | ⟨hcap, _⟩
      · rw [hemp]
        simp only [startItems]
        exact hinv.2 name
      · omega
    · rw [if_neg hnq] at h4q
      exact le_trans (by omega) (hinv.2 q)

theorem map_setStatus_ids (items : List QItem) (cid : Nat) (s : String) :
    ((items.map (fun d => if d.id = cid then { d with status := s } else d)).map QItem.id)
      = items.map QItem.id := by
  rw [List.map_map]
  apply List.map_congr_left
  intro d _
  by_cases h : d.id = cid <;> simp [h]

theorem applyOp_preserves (cap : String → Nat) (maxG : Nat) (st : SchedulerState)
    (op : SchedOp) (hwf : opWellFormed op = true)
    (hnodup : (st.items.map QItem.id).Nodup) (hcons : Consistent st)
    (hinv : SchedInv cap maxG st) :
    ((applyOp cap maxG st op).items.map QItem.id = st.items.map QItem.id) ∧
    Consistent (applyOp cap maxG st op) ∧
    SchedInv cap maxG (applyOp cap maxG st op) := by
  cases op with
  | startQueue name =>
      simp only [applyOp, start_queue]
      split
      · exact ⟨rfl, hcons, hinv⟩
      · exact processQueue_preserves cap maxG name
          { st with activeQueues := name :: st.activeQueues } hnodup hcons hinv
  | complete item finalStatus =>
      simp only [opWellFormed, Bool.not_eq_true'] at hwf
      simp only [applyOp, on_download_complete]
      have hids1 : (st.items.map (fun d =>
          if d.id = item.id then { d with status := finalStatus } else d)).map QItem.id
            = st.items.map QItem.id := map_setStatus_ids st.items item.id finalStatus
      have hnodup1 : ((st.items.map (fun d =>
          if d.id = item.id then { d with status := finalStatus } else d)).map QItem.id).Nodup := by
        rw [hids1]
        exact hnodup
      have hcons1 : Consistent
          { st with
            items := st.items.map (fun d =>
              if d.id = item.id then { d with status := finalStatus } else d)
            activeDownloads := st.activeDownloads.erase item.id } := by
        intro d hd hact
        simp only [List.mem_map] at hd
        obtain ⟨x, hx, rfl⟩ := hd
        by_cases hid : x.id = item.id
        · rw [if_pos hid] at hact ⊢
          rw [hwf] at hact
          cases hact
        · rw [if_neg hid] at hact ⊢
          exact (List.mem_erase_of_ne hid).mpr (hcons x hx hact)
      have hglob1 : (st.activeDownloads.erase item.id).length ≤ st.activeDownloads.length :=
        (List.erase_sublist item.id st.activeDownloads).length_le
      have hcount1 : ∀ q, countActiveInQueue
          { st with
            items := st.items.map (fun d =>
              if d.id = item.id then { d with status := finalStatus } else d)
            activeDownloads := st.activeDownloads.erase item.id } q
            ≤ countActiveInQueue st q := by
        intro q
        rw [countActive_eq_countP, countActive_eq_countP]
        have hform : ({ st with
            items := st.items.map (fun d =>
              if d.id = item.id then { d with status := finalStatus } else d)
            activeDownloads := st.activeDownloads.erase item.id } :
              SchedulerState).items.countP (fun d =>
                d.queue == q && (isActiveStatus d.status ||
                  (st.activeDownloads.erase item.id).contains d.id))
            = st.items.countP (fun d =>
                (if d.id = item.id then { d with status := finalStatus } else d).queue == q &&
                (isActiveStatus
                    (if d.id = item.id then { d with status := finalStatus } else d).status ||
                  (st.activeDownloads.erase item.id).contains
                    (if d.id = item.id then { d with status := finalStatus } else d).id)) := by
          simp only [List.countP_map]
          rfl
        rw [hform]
        apply List.countP_mono_left
        intro d _ hpred
        by_cases hid : d.id = item.id
        · rw [if_pos hid] at hpred
          simp only [Bool.and_eq_true, Bool.or_eq_true] at hpred ⊢
          obtain ⟨hqd, hrest⟩ := hpred
          refine ⟨hqd, ?_⟩
          rcases hrest with hact | hcont
          · rw [hwf] at hact
            cases hact
          · refine Or.inr ?_
            simp only [List.elem_eq_mem, decide_eq_true_eq] at hcont ⊢
            exact (List.erase_sublist item.id st.activeDownloads).subset hcont
        · rw [if_neg hid] at hpred
          simp only [Bool.and_eq_true, Bool.or_eq_true] at hpred ⊢
          obtain ⟨hqd, hrest⟩ := hpred
          refine ⟨hqd, ?_⟩
          rcases hrest with hact | hcont
          · exact Or.inl hact
          · refine Or.inr ?_
            simp only [List.elem_eq_mem, decide_eq_true_eq] at hcont ⊢
            exact (List.erase_sublist item.id st.activeDownloads).subset hcont
      have hinv1 : SchedInv cap maxG
          { st with
            items := st.items.map (fun d =>
              if d.id = item.id then { d with status := finalStatus } else d)
            activeDownloads := st.activeDownloads.erase item.id } :=
        ⟨le_trans hglob1 hinv.1, fun q => le_trans (hcount1 q) (hinv.2 q)⟩
      split
      · obtain ⟨p1, p2, p3⟩ := processQueue_preserves cap maxG item.queue _ hnodup1 hcons1 hinv1
        exact ⟨by rw [p1, hids1], p2, p3⟩
      · exact ⟨hids1, hcons1, hinv1⟩

theorem runOps_preserves (cap : String → Nat) (maxG : Nat) (ops : List SchedOp) :
    ∀ (st : SchedulerState),
    (∀ op ∈ ops, opWellFormed op = true) →
    (st.items.map QItem.id).Nodup → Consistent st → SchedInv cap maxG st →
    SchedInv cap maxG (runOps cap maxG ops st) := by
  induction ops with
  | nil => intro st _ _ _ hinv; exact hinv
  | cons op rest ih =>
      intro st hops hnodup hcons hinv
      obtain ⟨h1, h2, h3⟩ := applyOp_preserves cap maxG st op
        (hops op (List.mem_cons_self op rest)) hnodup hcons hinv
      have hstep : runOps cap maxG (op :: rest) st
          = runOps cap maxG rest (applyOp cap maxG st op) := rfl
      rw [hstep]
      refine ih (applyOp cap maxG st op) (fun o ho => hops o (List.mem_cons_of_mem op ho))
        ?_ h2 h3
      rw [h1]
      exact hnodup

/-- Claim C6.  From a clean start (no tracked downloads, no item in an
in-flight status, distinct item ids), every state reachable by
start_queue / on_download_complete dispatch steps keeps the number of
tracked active downloads at or below the global cap and the in-flight
count of every queue at or below that queue's cap; moreover each dispatch
(_process_queue) starts at most
min(queue cap - queue in-flight, global cap - global in-flight) items, all
of them eligible (pending-like status, in the dispatched queue), in
ascending queue_position order. -/
theorem mergen_C6_scheduler_caps (cap : String → Nat) (maxG : Nat) (ops : List SchedOp)
    (st0 : SchedulerState)
    (hstart : st0.activeDownloads = [])
    (hquiet : ∀ d ∈ st0.items, isActiveStatus d.status = false)
    (hids : (st0.items.map QItem.id).Nodup)
    (hops : ∀ op ∈ ops, opWellFormed op = true) :
    ((runOps cap maxG ops st0).activeDownloads.length ≤ maxG ∧
     ∀ q, countActiveInQueue (runOps cap maxG ops st0) q ≤ cap q) ∧
    (∀ name st,
      processQueue cap maxG name st = startItems st (dispatchList cap maxG name st) ∧
      (dispatchList cap maxG name st = [] ∨
        (countActiveInQueue st name + (dispatchList cap maxG name st).length ≤ cap name ∧
         st.activeDownloads.length + (dispatchList cap maxG name st).length ≤ maxG)) ∧
      (∀ x ∈ dispatchList cap maxG name st,
        x.queue = name ∧ isPendingStatus x.status = true) ∧
      (dispatchList cap maxG name st).Pairwise
        (fun a b => a.queuePosition ≤ b.queuePosition)) := by
  constructor
  · have hcons : Consistent st0 := by
      intro d hd hact
      rw [hquiet d hd] at hact
      cases hact
    have hinv0 : SchedInv cap maxG st0 := by
      constructor
      · rw [hstart]
        simp
      · intro q
        rw [countActive_eq_countP]
        have hz : st0.items.countP (fun d =>
            d.queue == q && (isActiveStatus d.status ||
              st0.activeDownloads.contains d.id)) = 0 := by
          rw [List.countP_eq_zero]
          intro d hd
          rw [hquiet d hd, hstart]
          simp
        rw [hz]
        exact Nat.zero_le _
    exact runOps_preserves cap maxG ops st0 hops hids hcons hinv0
  · intro name st
    refine ⟨rfl, dispatchList_capacity cap maxG name st, ?_, dispatchList_sorted cap maxG name st⟩
    intro x hx
    exact ⟨(dispatchList_mem cap maxG name st x hx).2.1,
           (dispatchList_mem cap maxG name st x hx).2.2⟩

/-- Concrete input for the C6 witness: scenario with two queues of cap 2,
global cap 3, three pending items in Q1 and two in Q2. -/
def c6State : SchedulerState :=
  { items :=
      [⟨1, "Q1", "Pending", 0⟩, ⟨2, "Q1", "Pending", 1⟩, ⟨3, "Q1", "Pending", 2⟩,
       ⟨4, "Q2", "Pending", 0⟩, ⟨5, "Q2", "Pending", 1⟩]
    activeDownloads := []
    activeQueues := [] }

def c6Ops : List SchedOp :=
  [SchedOp.startQueue "Q1", SchedOp.startQueue "Q2"]

/-- Witness for C6: starting both queues from the clean five-item state
keeps the global count at or below 3 and each queue's count at or below 2. -/
theorem mergen_C6_witness :
    (runOps (fun _ => 2) 3 c6Ops c6State).activeDownloads.length ≤ 3 ∧
    ∀ q, countActiveInQueue (runOps (fun _ => 2) 3 c6Ops c6State) q ≤ 2 :=
  (mergen_C6_scheduler_caps (fun _ => 2) 3 c6Ops c6State (by decide) (by decide)
    (by decide) (by decide)).1

/-! ## Registry restore (download_manager.py load_state, models.py DownloadStatus) -/

/-- Embedding of the DownloadStatus enum (models.py lines 27-34).  The enum
has exactly these five members; there is no Stopped member. -/
inductive DownloadStatus
  | pending
  | downloading
  | paused
  | completed
  | failed
deriving Repr, DecidableEq

/-- Embedding of the `DownloadStatus(value)` enum lookup: an unknown value
raises ValueError, modelled as none. -/
def downloadStatusOfString : String → Option DownloadStatus
  | "pending" => some DownloadStatus.pending
  | "downloading" => some DownloadStatus.downloading
  | "paused" => some DownloadStatus.paused
  | "completed" => some DownloadStatus.completed
  | "failed" => some DownloadStatus.failed
  | _ => none

/-- One persisted registry entry, restricted to the fields the status
restoration reads: `data.get("status", "pending")` (absent field means
the default "pending"). -/
structure PersistedItem where
  url : String
  statusField : Option String
deriving Repr, DecidableEq

structure LoadedItem where
  url : String
  status : DownloadStatus
deriving Repr, DecidableEq

instance : Inhabited PersistedItem := ⟨⟨"", none⟩⟩

instance : Inhabited LoadedItem := ⟨⟨"", DownloadStatus.pending⟩⟩

/-- Embedding of DownloadManager._deserialize_download restricted to the
status restoration (download_manager.py line 159):
`item.status = DownloadStatus(data.get("status", "pending"))`. -/
def deserializeStatus (d : PersistedItem) : Option DownloadStatus :=
  downloadStatusOfString (d.statusField.getD "pending")

/-- Embedding of DownloadManager.load_state (download_manager.py lines
95-114), restricted to status restoration: each persisted entry is
deserialized in turn; a ValueError from any entry aborts the whole load
(the except-handler backs the file up and starts fresh, modelled as
none). -/
def load_state : List PersistedItem → Option (List LoadedItem)
  | [] => some []
  | d :: rest =>
    match deserializeStatus d, load_state rest with
    | some s, some l => some ({ url := d.url, status := s } :: l)
    | _, _ => none

/-- Claim C7, counterexample.  An entry persisted with status
"downloading" is restored with status Downloading, not Stopped: load_state
copies the persisted status verbatim, and the DownloadStatus enum does not
even contain a Stopped member ("stopped" raises ValueError). -/
theorem mergen_C7_counterexample :
    load_state [⟨"http://host/f.bin", some "downloading"⟩]
      = some [⟨"http://host/f.bin", DownloadStatus.downloading⟩] ∧
    (∃ l, load_state [⟨"http://host/f.bin", some "downloading"⟩] = some l ∧
      ∃ it ∈ l, it.status = DownloadStatus.downloading) ∧
    downloadStatusOfString "stopped" = none := by
  decide

/-- Claim C7 (amended).  DownloadManager.load_state restores every item's
persisted status verbatim (an absent status defaults to pending, an
unknown status string fails the whole load): in particular an item
persisted while Downloading is restored as Downloading, not Stopped — the
status enum has no Stopped member at all. -/
theorem mergen_C7_load_state_verbatim (entries : List PersistedItem)
    (l : List LoadedItem) (h : load_state entries = some l) :
    l.length = entries.length ∧
    (∀ i, i < entries.length →
      some (l.getD i default).status = deserializeStatus (entries.getD i default) ∧
      (l.getD i default).url = (entries.getD i default).url) ∧
    (∀ i, i < entries.length →
      (entries.getD i default).statusField = some "downloading" →
      (l.getD i default).status = DownloadStatus.downloading) := by
  induction entries generalizing l with
  | nil =>
      rw [load_state] at h
      cases h
      exact ⟨rfl, fun i hi => by simp at hi, fun i hi => by simp at hi⟩
  | cons d rest ih =>
      rw [load_state] at h
      rcases hd : deserializeStatus d with _ | s
      · rw [hd] at h
        cases h
      · rw [hd] at h
        rcases hr : load_state rest with _ | lrest
        · rw [hr] at h
          cases h
        · rw [hr] at h
          cases h
          obtain ⟨ih1, ih2, ih3⟩ := ih lrest hr
          refine ⟨by simp [ih1], ?_, ?_⟩
          · intro i hi
            cases i with
            | zero => exact ⟨hd.symm, rfl⟩
            | succ j =>
                simp only [List.getD_cons_succ]
                exact ih2 j (by simpa using hi)
          · intro i hi hdown
            cases i with
            | zero =>
                simp only [List.getD_cons_zero] at hdown ⊢
                rw [deserializeStatus, hdown] at hd
                simp only [Option.getD_some] at hd
                rw [downloadStatusOfString] at hd
                cases hd
                rfl
            | succ j =>
                simp only [List.getD_cons_succ] at hdown ⊢
                exact ih3 j (by simpa using hi) hdown

/-- Witness for C7 at a two-entry registry. -/
theorem mergen_C7_witness :
    (([⟨"http://a/x", DownloadStatus.downloading⟩,
       ⟨"http://b/y", DownloadStatus.pending⟩] : List LoadedItem).length
        = ([⟨"http://a/x", some "downloading"⟩, ⟨"http://b/y", none⟩] :
            List PersistedItem).length) ∧
    (([⟨"http://a/x", DownloadStatus.downloading⟩,
       ⟨"http://b/y", DownloadStatus.pending⟩] : List LoadedItem).getD 0
          default).status = DownloadStatus.downloading :=
  have h := mergen_C7_load_state_verbatim
    [⟨"http://a/x", some "downloading"⟩, ⟨"http://b/y", none⟩]
    [⟨"http://a/x", DownloadStatus.downloading⟩,
     ⟨"http://b/y", DownloadStatus.pending⟩]
    (by decide)
  ⟨h.1, h.2.2 0 (by decide) (by decide)⟩

/-! ## URL validation (downloader.py prepare, lines 442-448) -/

/-- The browser-internal scheme literals refused by prepare
(downloader.py line 442). -/
def browserInternalSchemes : List String :=
  ["chrome://", "about://", "file://", "chrome-extension://", "moz-extension://"]

/-- The scheme literals prepare treats as already having a protocol
(downloader.py line 446). -/
def passThroughSchemes : List String :=
  ["http://", "https://", "ftp://"]

/-- Character-list prefix test (String.isPrefixOf and the BEq-based
List.isPrefixOf do not reduce well definitionally, so the recursion is
spelled out). -/
def charListIsPrefix : List Char → List Char → Bool
  | [], _ => true
  | _ :: _, [] => false
  | a :: as, b :: bs => if a = b then charListIsPrefix as bs else false

/-- Python `url.startswith(tuple_of_literals)`. -/
def startsWithAny (url : String) (ps : List String) : Bool :=
  ps.any (fun p => charListIsPrefix p.toList url.toList)

/-- Embedding of the URL validation of Downloader.prepare (downloader.py
lines 442-448):

    if self.url.startswith(("chrome://", "about://", "file://",
                            "chrome-extension://", "moz-extension://")):
        raise ValueError(...)
    if not self.url.startswith(("http://", "https://", "ftp://")):
        self.url = "https://" + self.url

The raise is modelled as Except.error; the (possibly rewritten) URL that
the request then uses is returned in Except.ok. -/
def validate_url (url : String) : Except String String :=
  if startsWithAny url browserInternalSchemes then
    Except.error "Browser-internal URLs are not downloadable"
  else if startsWithAny url passThroughSchemes then
    Except.ok url
  else
    Except.ok ("https://" ++ url)

/-- Claim C8, counterexample.  An ftp:// URL is not refused by prepare's
validation (it is passed through unchanged, to fail only later inside the
HTTP client), and the https:// auto-prefix is applied to
"ssh://example.com" even though that input plainly contains a scheme
separator. -/
theorem mergen_C8_counterexample :
    validate_url "ftp://example.com/file.bin"
      = Except.ok "ftp://example.com/file.bin" ∧
    validate_url "ssh://example.com" = Except.ok "https://ssh://example.com" ∧
    ("ssh://example.com").toList
      = ("ssh").toList ++ ("://").toList ++ ("example.com").toList :=
  ⟨rfl, rfl, rfl⟩

/-- Claim C8 (amended).  For every URL, prepare's validation raises if and
only if the URL starts with one of the five browser-internal scheme
literals; every URL starting with http://, https:// or ftp:// passes
through unchanged (so ftp:// is not refused by validation — the subsequent
HTTP request fails instead); and every other input, whether or not it
contains a scheme separator, has https:// prefixed — e.g. ssh://host
becomes https://ssh://host. -/
theorem mergen_C8_scheme_handling (url : String) :
    ((∃ msg, validate_url url = Except.error msg)
      ↔ startsWithAny url browserInternalSchemes = true) ∧
    (startsWithAny url browserInternalSchemes = false →
      startsWithAny url passThroughSchemes = true →
      validate_url url = Except.ok url) ∧
    (startsWithAny url browserInternalSchemes = false →
      startsWithAny url passThroughSchemes = false →
      validate_url url = Except.ok ("https://" ++ url)) := by
  by_cases h1 : startsWithAny url browserInternalSchemes <;>
    by_cases h2 : startsWithAny url passThroughSchemes <;>
      simp [validate_url, h1, h2]

/-- Witness for C8: the pass-through clause at an ftp:// URL and the
https:// auto-prefix clause at a separator-bearing ssh:// URL. -/
theorem mergen_C8_witness :
    startsWithAny "ftp://example.com/file.bin" browserInternalSchemes = false ∧
    startsWithAny "ftp://example.com/file.bin" passThroughSchemes = true ∧
    validate_url "ftp://example.com/file.bin"
      = Except.ok "ftp://example.com/file.bin" ∧
    startsWithAny "ssh://example.com" browserInternalSchemes = false ∧
    startsWithAny "ssh://example.com" passThroughSchemes = false ∧
    validate_url "ssh://example.com" = Except.ok ("https://" ++ "ssh://example.com") :=
  ⟨by decide, by decide,
   (mergen_C8_scheme_handling "ftp://example.com/file.bin").2.1 (by decide) (by decide),
   by decide, by decide,
   (mergen_C8_scheme_handling "ssh://example.com").2.2 (by decide) (by decide)⟩

/-! ## Server-declared filenames (downloader.py prepare lines 454-468,
update_filenames lines 114-122; utils.py sanitize_filename lines 111-134) -/

/-- The characters utils.sanitize_filename replaces
(`invalid_chars = '<>:"/\\|?*'`, utils.py line 122). -/
def invalidFilenameChars : List Char := ['<', '>', ':', '"', '/', '\\', '|', '?', '*']

/-- Python str.strip(chars): remove leading and trailing characters drawn
from the given set. -/
def pyStrip (cs : List Char) (strip : List Char) : List Char :=
  ((cs.dropWhile (fun c => decide (c ∈ strip))).reverse.dropWhile
    (fun c => decide (c ∈ strip))).reverse

/-- Python l[:n] for possibly negative n (a negative bound counts from the
end). -/
def pySliceTo (cs : List Char) (n : Int) : List Char :=
  if 0 ≤ n then cs.take n.toNat else cs.take ((cs.length : Int) + n).toNat

/-- Split a name at its last dot: `name.rsplit(".", 1)` when a dot is
present. -/
def lastDotSplit (cs : List Char) : Option (List Char × List Char) :=
  match cs.reverse.findIdx? (fun c => decide (c = '.')) with
  | some i => some ((cs.reverse.drop (i + 1)).reverse, (cs.reverse.take i).reverse)
  | none => none

/-- Embedding of utils.sanitize_filename (utils.py lines 111-134):
replace the invalid characters by underscores (the sequential
str.replace calls amount to a character map, since the replacement
underscore is itself never replaced), strip leading/trailing dots and
spaces, cap the character length at 200 preserving the extension behind
the last dot, and fall back to "download" when nothing is left. -/
def sanitize_filename (filename : String) : String :=
  let replaced := filename.toList.map (fun c =>
    if c ∈ invalidFilenameChars then '_' else c)
  let stripped := pyStrip replaced ['.', ' ']
  let capped :=
    if 200 < stripped.length then
      match lastDotSplit stripped with
      | some (namePart, ext) =>
          if ext ≠ [] then
            pySliceTo namePart (200 - (ext.length : Int) - 1) ++ '.' :: ext
          else pySliceTo namePart 200
      | none => pySliceTo stripped 200
    else stripped
  if capped = [] then "download" else String.mk capped

/-- Embedding of the two-argument os.path.join used by update_filenames
(downloader.py line 118): an absolute second component replaces the first;
otherwise the components are joined with a slash. -/
def osPathJoin (dir name : String) : String :=
  if charListIsPrefix ['/'] name.toList then name
  else match dir.toList.getLast? with
    | some '/' => dir ++ name
    | _ => dir ++ "/" ++ name

/-- The filename flow of Downloader.prepare (downloader.py lines 454-468):
the Content-Disposition name (after the regex extraction and quote
stripping) is handed to update_filenames as-is — sanitize_filename is
never called on it — and joined with the save directory. -/
def resolvedDownloadPath (saveDir cleanName : String) : String :=
  osPathJoin saveDir cleanName

/-- The .part path the download writes to
(`self.temp_filename = f"{self.filename}.part"`). -/
def resolvedPartPath (saveDir cleanName : String) : String :=
  resolvedDownloadPath saveDir cleanName ++ ".part"

/-- Lexical path normalization (resolving "." and ".." components), used
to decide whether a write path escapes the target directory. -/
def resolveDots : List (List Char) → List (List Char) → List (List Char)
  | acc, [] => acc.reverse
  | acc, c :: rest =>
    if c = ['.'] then resolveDots acc rest
    else if c = ['.', '.'] then
      match acc with
      | [] => resolveDots [] rest
      | a :: as => if a = [] then resolveDots (a :: as) rest else resolveDots as rest
    else resolveDots (c :: acc) rest

def normalizePath (p : String) : String :=
  String.mk (joinWithChar '/' (resolveDots [] (splitOnChar '/' p.toList)))

def isUnderDir (dir p : String) : Bool :=
  charListIsPrefix (dir.toList ++ ['/']) (normalizePath p).toList

theorem mem_pyStrip (cs strip : List Char) : ∀ c ∈ pyStrip cs strip, c ∈ cs := by
  intro c hc
  rw [pyStrip, List.mem_reverse] at hc
  have h1 := (List.dropWhile_sublist _).subset hc
  rw [List.mem_reverse] at h1
  exact (List.dropWhile_sublist _).subset h1

theorem mem_lastDotSplit (cs n e : List Char) (h : lastDotSplit cs = some (n, e)) :
    (∀ c ∈ n, c ∈ cs) ∧ (∀ c ∈ e, c ∈ cs) := by
  rw [lastDotSplit] at h
  rcases hidx : cs.reverse.findIdx? (fun c => decide (c = '.')) with _ | i <;>
    rw [hidx] at h
  · cases h
  · cases h
    constructor
    · intro c hc
      rw [List.mem_reverse] at hc
      have h2 := List.drop_subset _ _ hc
      rwa [List.mem_reverse] at h2
    · intro c hc
      rw [List.mem_reverse] at hc
      have h2 := List.take_subset _ _ hc
      rwa [List.mem_reverse] at h2

theorem mem_pySliceTo (cs : List Char) (k : Int) : ∀ c ∈ pySliceTo cs k, c ∈ cs := by
  intro c hc
  rw [pySliceTo] at hc
  split at hc <;> exact List.take_subset _ _ hc

/-- Sanitized names never contain a path separator: had prepare passed the
server-declared name through utils.sanitize_filename, the resolved path
could not have escaped the save directory. -/
theorem sanitize_filename_no_slash (name : String) :
    '/' ∉ (sanitize_filename name).toList := by
  have hrep : ∀ c ∈ name.toList.map (fun c =>
      if c ∈ invalidFilenameChars then '_' else c), c ≠ '/' := by
    intro c hc
    rw [List.mem_map] at hc
    obtain ⟨a, _, rfl⟩ := hc
    split
    · decide
    · rename_i hnin
      intro he
      rw [he] at hnin
      exact hnin (by decide)
  intro hmem
  simp only [sanitize_filename] at hmem
  set stripped := pyStrip (name.toList.map (fun c =>
      if c ∈ invalidFilenameChars then '_' else c)) ['.', ' '] with hstripped
  have hstr : ∀ c ∈ stripped, c ≠ '/' :=
    fun c hc => hrep c (mem_pyStrip _ _ c hc)
  set capped := (if 200 < stripped.length then
      match lastDotSplit stripped with
      | some (namePart, ext) =>
          if ext ≠ [] then
            pySliceTo namePart (200 - (ext.length : Int) - 1) ++ '.' :: ext
          else pySliceTo namePart 200
      | none => pySliceTo stripped 200
    else stripped) with hcapped
  have hcap : ∀ c ∈ capped, c ≠ '/' := by
    intro c hc
    rw [hcapped] at hc
    split at hc
    · split at hc
      · rename_i n e heq
        have hparts := mem_lastDotSplit stripped n e heq
        split at hc
        · rw [List.mem_append] at hc
          rcases hc with hc | hc
          · exact hstr c (hparts.1 c (mem_pySliceTo _ _ c hc))
          · rw [List.mem_cons] at hc
            rcases hc with rfl | hc
            · decide
            · exact hstr c (hparts.2 c hc)
        · exact hstr c (hparts.1 c (mem_pySliceTo _ _ c hc))
      · exact hstr c (mem_pySliceTo _ _ c hc)
    · exact hstr c hc
  by_cases h0 : capped = []
  · rw [if_pos h0] at hmem
    exact absurd hmem (by decide)
  · rw [if_neg h0] at hmem
    exact hcap '/' hmem rfl

/-- Claim C9, evaluation at the failing input.  A server that answers the
probe with `Content-Disposition: filename="../../.bashrc"` makes prepare
resolve the part file to /home/user/Downloads/../../.bashrc.part, which
normalizes to /home/.bashrc.part — outside the target directory: the name
is used unsanitized.  utils.sanitize_filename, which prepare never calls
on this path, would have produced the safe relative name "_.._.bashrc",
which stays inside the target directory. -/
theorem mergen_C9_unsanitized_server_filename :
    resolvedPartPath "/home/user/Downloads" "../../.bashrc"
      = "/home/user/Downloads/../../.bashrc.part" ∧
    normalizePath (resolvedPartPath "/home/user/Downloads" "../../.bashrc")
      = "/home/.bashrc.part" ∧
    isUnderDir "/home/user/Downloads"
      (resolvedPartPath "/home/user/Downloads" "../../.bashrc") = false ∧
    sanitize_filename "../../.bashrc" = "_.._.bashrc" ∧
    isUnderDir "/home/user/Downloads"
      (resolvedPartPath "/home/user/Downloads" (sanitize_filename "../../.bashrc"))
        = true := by
  refine ⟨rfl, ?_, ?_, ?_, ?_⟩ <;> decide

/-! ## Stream detection and routing (downloader.py _detect_stream_type
lines 224-232, start lines 634-665) -/

/-- Prefixes of the character list that end immediately before some '?'
occurrence.  Together with the whole list these are the candidate match
endpoints of a regex of the form `PAT(\?.*)?$`. -/
def qmarkSplits (cs : List Char) : List (List Char) :=
  (List.range cs.length).filterMap (fun i =>
    if cs.getD i ' ' = '?' then some (cs.take i) else none)

def charListIsSuffix (s cs : List Char) : Bool :=
  charListIsPrefix s.reverse cs.reverse

/-- Embedding of `re.search(r"\.(EXT)(\?.*)?$", url, re.I)` as used by
_detect_stream_type: the URL matches iff, after lowercasing, some
candidate endpoint (the whole URL or a prefix cut right before a '?')
ends in one of the extensions. -/
def streamPatternMatches (url : String) (exts : List String) : Bool :=
  let lc := url.toList.map Char.toLower
  (lc :: qmarkSplits lc).any (fun c => exts.any (fun e => charListIsSuffix e.toList c))

/-- Embedding of Downloader._detect_stream_type (downloader.py lines
224-232): the three patterns are tried in order. -/
def detect_stream_type (url : String) : String :=
  if streamPatternMatches url [".m3u8"] then "hls"
  else if streamPatternMatches url [".mpd"] then "dash"
  else if streamPatternMatches url [".ts", ".mp4", ".mp3"] then "media"
  else "direct"

/-- Embedding of the routing decision of Downloader.start (downloader.py
line 656): `if self.stream_type in ["hls", "dash"] or is_streaming_site`,
where is_streaming_site is true iff a non-generic yt-dlp extractor claims
the URL.  True routes to the yt-dlp streaming delegate, false takes the
direct segmented path. -/
def routesToStreamingDelegate (streamType : String) (isStreamingSite : Bool) : Bool :=
  (streamType == "hls" || streamType == "dash") || isStreamingSite

/-- Claim C10.  A URL detected as stream_type "media" (path ending in
.mp4/.mp3/.ts, optionally with a query) that no non-generic extractor
claims takes the direct segmented path; the streaming delegate is used
exactly for stream_type hls or dash (paths ending .m3u8/.mpd) or for
extractor-claimed URLs.  The concrete clauses instantiate the detector at
media, hls, dash and direct URLs. -/
theorem mergen_C10_media_routing :
    (∀ (url : String) (claimed : Bool),
      routesToStreamingDelegate (detect_stream_type url) claimed = true ↔
        (detect_stream_type url = "hls" ∨ detect_stream_type url = "dash" ∨
          claimed = true)) ∧
    (∀ url : String, detect_stream_type url = "media" →
      routesToStreamingDelegate (detect_stream_type url) false = false) ∧
    detect_stream_type "http://host/video.mp4" = "media" ∧
    detect_stream_type "http://host/clip.TS?session=1" = "media" ∧
    detect_stream_type "http://host/song.mp3" = "media" ∧
    detect_stream_type "http://host/live.m3u8?token=1" = "hls" ∧
    detect_stream_type "http://host/manifest.mpd" = "dash" ∧
    detect_stream_type "http://host/file.bin" = "direct" ∧
    routesToStreamingDelegate (detect_stream_type "http://host/video.mp4") false
      = false ∧
    routesToStreamingDelegate (detect_stream_type "http://host/live.m3u8?token=1")
      false = true := by
  refine ⟨?_, ?_, by decide, by decide, by decide, by decide, by decide, by decide,
    by decide, by decide⟩
  · intro url claimed
    rw [routesToStreamingDelegate]
    constructor
    · intro h
      rcases Bool.or_eq_true _ _ ▸ h with h1 | h2
      · rcases Bool.or_eq_true _ _ ▸ h1 with ha | hb
        · exact Or.inl (by simpa using ha)
        · exact Or.inr (Or.inl (by simpa using hb))
      · exact Or.inr (Or.inr h2)
    · rintro (h | h | h)
      · simp [h]
      · simp [h]
      · simp [h]
  · intro url h
    rw [h]
    decide

/-- Witness for C10: the plain .mp4 URL is detected as media and, when no
extractor claims it, takes the direct path. -/
theorem mergen_C10_witness :
    detect_stream_type "http://host/video.mp4" = "media" ∧
    routesToStreamingDelegate (detect_stream_type "http://host/video.mp4") false
      = false :=
  ⟨by decide,
   mergen_C10_media_routing.2.1 "http://host/video.mp4" (by decide)⟩

end Mergen
